import Mathlib

/-!
# Verification of the ChannelGuard credential store and PIN authenticator

A shallow embedding of the extension's IndexedDB-backed credential store
(`blockedAuthors` and `settings` collections), the PIN lifecycle built on
SHA-256 digests (`hashString`, `setPIN`, `verifyPIN`, `updatePIN`,
`isPINSet`), the author CRUD operations (`authorExists`, `addAuthor`,
`deleteAuthor`, `getAuthors`, `clearAuthors`), the background message
listener, and the lazily-memoized database handle of `openDatabase`.
-/

set_option maxRecDepth 40000

namespace ChannelGuard

/-! ## Case folding (model of JS `String.prototype.toLowerCase`)

JavaScript's `toLowerCase` applies the Unicode simple lowercase mapping;
we model the ASCII portion (A-Z ↦ a-z), which is the alphabet relevant to
author-name comparisons in the store. -/

/-- Lowercase a single character: ASCII `A`..`Z` maps to `a`..`z`,
everything else is unchanged. -/
def lowerChar (c : Char) : Char :=
  if 65 ≤ c.toNat ∧ c.toNat ≤ 90 then Char.ofNat (c.toNat + 32) else c

/-- Lowercase a string characterwise (model of `name.toLowerCase()`). -/
def lowerStr (s : String) : String :=
  String.mk (s.data.map lowerChar)

theorem toNat_ofNat_of_small {n : Nat} (h : n < 55296) :
    (Char.ofNat n).toNat = n := by
  have hv : n.isValidChar := Or.inl h
  simp [Char.ofNat, hv, Char.ofNatAux, Char.toNat, UInt32.toNat]

theorem lowerChar_eq_self (d : Char) (hd : d.toNat < 65 ∨ 90 < d.toNat) :
    lowerChar d = d := by
  unfold lowerChar
  rw [if_neg]
  omega

theorem lowerChar_idem (c : Char) : lowerChar (lowerChar c) = lowerChar c := by
  by_cases h : 65 ≤ c.toNat ∧ c.toNat ≤ 90
  · have hlt : c.toNat + 32 < 55296 := by omega
    have hc : (Char.ofNat (c.toNat + 32)).toNat = c.toNat + 32 :=
      toNat_ofNat_of_small hlt
    have h1 : lowerChar c = Char.ofNat (c.toNat + 32) := by
      unfold lowerChar
      rw [if_pos h]
    rw [h1]
    exact lowerChar_eq_self _ (Or.inr (by rw [hc]; omega))
  · rw [lowerChar_eq_self c (by omega), lowerChar_eq_self c (by omega)]

theorem lowerStr_idem (s : String) : lowerStr (lowerStr s) = lowerStr s := by
  unfold lowerStr
  simp [List.map_map, Function.comp_def, lowerChar_idem]

/-! ## `hashString` (src/modules/hashUtils.js)

`hashString(input)` encodes the string as UTF-8 (`TextEncoder().encode`),
digests it with SHA-256 (`crypto.subtle.digest`), and renders each digest
byte as `byte.toString(16).padStart(2, "0")`, joined.  Bytes are `Nat`s
below 256; 32-bit words are `Nat`s below 2^32. -/

/-- UTF-8 encoding of one Unicode scalar value (model of `TextEncoder`). -/
def utf8EncodeChar (c : Nat) : List Nat :=
  if c < 128 then [c]
  else if c < 2048 then [192 + c / 64, 128 + c % 64]
  else if c < 65536 then [224 + c / 4096, 128 + (c / 64) % 64, 128 + c % 64]
  else [240 + c / 262144, 128 + (c / 4096) % 64, 128 + (c / 64) % 64, 128 + c % 64]

/-- UTF-8 byte sequence of a string (model of `new TextEncoder().encode(input)`). -/
def utf8Encode (s : String) : List Nat :=
  s.data.flatMap (fun c => utf8EncodeChar c.toNat)

/-- Truncate to a 32-bit word. -/
def w32 (n : Nat) : Nat := n % 4294967296

/-- Rotate a 32-bit word right by `n` bits. -/
def rotr (x n : Nat) : Nat := w32 ((x >>> n) ||| (x <<< (32 - n)))

def sigma0 (x : Nat) : Nat := (rotr x 7) ^^^ (rotr x 18) ^^^ (x >>> 3)

def sigma1 (x : Nat) : Nat := (rotr x 17) ^^^ (rotr x 19) ^^^ (x >>> 10)

def bigSigma0 (x : Nat) : Nat := (rotr x 2) ^^^ (rotr x 13) ^^^ (rotr x 22)

def bigSigma1 (x : Nat) : Nat := (rotr x 6) ^^^ (rotr x 11) ^^^ (rotr x 25)

def chFn (x y z : Nat) : Nat := (x &&& y) ^^^ ((x ^^^ 4294967295) &&& z)

def majFn (x y z : Nat) : Nat := (x &&& y) ^^^ (x &&& z) ^^^ (y &&& z)

/-- The 64 SHA-256 round constants (FIPS 180-4 §4.2.2), in decimal. -/
def roundK : List Nat :=
  [1116352408, 1899447441, 3049323471, 3921009573,
   961987163, 1508970993, 2453635748, 2870763221,
   3624381080, 310598401, 607225278, 1426881987,
   1925078388, 2162078206, 2614888103, 3248222580,
   3835390401, 4022224774, 264347078, 604807628,
   770255983, 1249150122, 1555081692, 1996064986,
   2554220882, 2821834349, 2952996808, 3210313671,
   3336571891, 3584528711, 113926993, 338241895,
   666307205, 773529912, 1294757372, 1396182291,
   1695183700, 1986661051, 2177026350, 2456956037,
   2730485921, 2820302411, 3259730800, 3345764771,
   3516065817, 3600352804, 4094571909, 275423344,
   430227734, 506948616, 659060556, 883997877,
   958139571, 1322822218, 1537002063, 1747873779,
   1955562222, 2024104815, 2227730452, 2361852424,
   2428436474, 2756734187, 3204031479, 3329325298]

/-- Working state of the compression function: eight 32-bit words. -/
structure Hash8 where
  a : Nat
  b : Nat
  c : Nat
  d : Nat
  e : Nat
  f : Nat
  g : Nat
  h : Nat
deriving Repr, DecidableEq

/-- SHA-256 initial hash value (FIPS 180-4 §5.3.3), in decimal. -/
def initH : Hash8 :=
  ⟨1779033703, 3144134277, 1013904242, 2773480762,
   1359893119, 2600822924, 528734635, 1541459225⟩

/-- Group a byte list into big-endian 32-bit words. -/
def toWords : List Nat → List Nat
  | b0 :: b1 :: b2 :: b3 :: rest =>
      (b0 * 16777216 + b1 * 65536 + b2 * 256 + b3) :: toWords rest
  | _ => []

/-- Message schedule: extend the 16 block words to 64 words. -/
def schedule (ws0 : List Nat) : List Nat :=
  ((List.range 48).foldl
    (fun ws _ =>
      ws.push (w32 (sigma1 ws[ws.size - 2]! + ws[ws.size - 7]! +
                    sigma0 ws[ws.size - 15]! + ws[ws.size - 16]!)))
    ws0.toArray).toList

/-- One SHA-256 round. -/
def round (st : Hash8) (wk : Nat × Nat) : Hash8 :=
  let t1 := w32 (st.h + bigSigma1 st.e + chFn st.e st.f st.g + wk.2 + wk.1)
  let t2 := w32 (bigSigma0 st.a + majFn st.a st.b st.c)
  ⟨w32 (t1 + t2), st.a, st.b, st.c, w32 (st.d + t1), st.e, st.f, st.g⟩

/-- Compress one 64-byte block into the running hash value. -/
def compressBlock (hs : Hash8) (block : List Nat) : Hash8 :=
  let st := ((schedule (toWords block)).zip roundK).foldl round hs
  ⟨w32 (hs.a + st.a), w32 (hs.b + st.b), w32 (hs.c + st.c), w32 (hs.d + st.d),
   w32 (hs.e + st.e), w32 (hs.f + st.f), w32 (hs.g + st.g), w32 (hs.h + st.h)⟩

/-- Big-endian 8-byte rendering of the message bit length. -/
def lengthBytes (n : Nat) : List Nat :=
  [(n / 72057594037927936) % 256, (n / 281474976710656) % 256,
   (n / 1099511627776) % 256, (n / 4294967296) % 256,
   (n / 16777216) % 256, (n / 65536) % 256, (n / 256) % 256, n % 256]

/-- SHA-256 padding: append `0x80`, zero bytes to 56 mod 64, then the
64-bit big-endian bit length. -/
def padMessage (msg : List Nat) : List Nat :=
  msg ++ [128] ++ List.replicate ((119 - msg.length % 64) % 64) 0 ++
    lengthBytes (msg.length * 8)

/-- Fueled splitting into 64-byte blocks; fuel `l.length` always
suffices since every step consumes at least one byte. -/
def toBlocksAux : Nat → List Nat → List (List Nat)
  | 0, _ => []
  | _, [] => []
  | fuel + 1, x :: xs => ((x :: xs).take 64) :: toBlocksAux fuel ((x :: xs).drop 64)

/-- Split a byte list into 64-byte blocks. -/
def toBlocks (l : List Nat) : List (List Nat) := toBlocksAux l.length l

/-- Big-endian bytes of a 32-bit word. -/
def wordBytes (w : Nat) : List Nat :=
  [(w / 16777216) % 256, (w / 65536) % 256, (w / 256) % 256, w % 256]

/-- Modelled from the spec: the platform digest primitive
`crypto.subtle.digest("SHA-256", buffer)`, which is not part of the
repository; implemented per FIPS 180-4 as the spec names the algorithm.
Maps a byte sequence to its 32-byte SHA-256 digest. -/
def sha256 (msg : List Nat) : List Nat :=
  let hs := (toBlocks (padMessage msg)).foldl compressBlock initH
  wordBytes hs.a ++ wordBytes hs.b ++ wordBytes hs.c ++ wordBytes hs.d ++
    wordBytes hs.e ++ wordBytes hs.f ++ wordBytes hs.g ++ wordBytes hs.h

/-- One lowercase hexadecimal digit character. -/
def hexDigit (n : Nat) : Char :=
  if n < 10 then Char.ofNat (48 + n) else Char.ofNat (87 + n)

/-- Fueled base-16 rendering (most significant digit first); fuel `n + 1`
always suffices for input `n`. -/
def toHexDigitsAux : Nat → Nat → List Char
  | 0, _ => []
  | fuel + 1, n =>
      if n < 16 then [hexDigit n]
      else toHexDigitsAux fuel (n / 16) ++ [hexDigit (n % 16)]

/-- Model of JS `byte.toString(16)` on a natural number. -/
def toHexDigits (n : Nat) : List Char := toHexDigitsAux (n + 1) n

/-- Model of `.padStart(2, "0")` on a character list. -/
def padStart2 (l : List Char) : List Char :=
  List.replicate (2 - l.length) '0' ++ l

/-- The function `hashString(input)` from src/modules/hashUtils.js: UTF-8 encode, take
the SHA-256 digest, render every byte as two lowercase hex characters
(`toString(16)` then `padStart(2, "0")`), and join. -/
def hashString (input : String) : String :=
  String.mk ((sha256 (utf8Encode input)).flatMap
    (fun b => padStart2 (toHexDigits b)))

/-- Sanity anchor for the SHA-256 model: the FIPS 180-4 test vector. -/
theorem hashString_abc : hashString "abc" =
    "ba7816bf8f01cfea414140de5dae2223b00361a396177a9cb410ff61f20015ad" := by
  decide

/-! ## The credential store (src/unnamed/part_002)

The IndexedDB database `channelGuardDB` holds two object stores:
`blockedAuthors` (keyPath `id`, autoIncrement) and `settings` (keyPath
`id`).  We embed a database state as the record lists plus the
autoincrement counter; every operation is the state transformer the JS
function performs inside its own transaction. -/

/-- A record of the `blockedAuthors` object store. -/
structure AuthorRecord where
  id : Nat
  name : String
deriving Repr, DecidableEq

/-- A record of the `settings` object store (keyPath `id`). -/
structure SettingRecord where
  id : String
  type : String
  value : String
deriving Repr, DecidableEq

/-- State of the `channelGuardDB` database. IndexedDB autoincrement keys
start at 1. -/
structure DBState where
  blockedAuthors : List AuthorRecord
  nextAuthorKey : Nat
  settings : List SettingRecord
deriving Repr, DecidableEq

/-- The freshly created database: both object stores empty. -/
def dbInit : DBState := ⟨[], 1, []⟩

/-- Model of `store.get(key)` on the `settings` object store. -/
def getSetting (s : DBState) (key : String) : Option SettingRecord :=
  s.settings.find? (fun r => r.id == key)

/-- Model of `store.put(rec)` on the `settings` object store: replaces the record
with the same key, or inserts. -/
def putSetting (s : DBState) (rec : SettingRecord) : DBState :=
  { s with settings := rec :: s.settings.filter (fun r => r.id != rec.id) }

/-- The cursor walk inside `authorExists`: resolve `true` at the first
record whose lowercased name matches, `false` when the cursor is
exhausted. -/
def cursorScan : List AuthorRecord → String → Bool
  | [], _ => false
  | r :: rest, n => if lowerStr r.name == n then true else cursorScan rest n

/-- The function `authorExists(authorName)`: case-insensitive full scan of
`blockedAuthors` via a cursor. -/
def authorExists (s : DBState) (authorName : String) : Bool :=
  cursorScan s.blockedAuthors (lowerStr authorName)

/-- Outcome of `addAuthor`: either the duplicate alert
(`alert("Author already exists: ...")`, resolving `undefined`) or the new
record's key. -/
inductive AddOutcome where
  | alreadyExists
  | added (key : Nat)
deriving Repr, DecidableEq

/-- The function `addAuthor(authorName)`: check `authorExists` first; on duplicate,
alert and insert nothing; otherwise `store.add({name: lowercased})`,
which assigns the next autoincrement key and resolves with it. -/
def addAuthor (s : DBState) (authorName : String) : AddOutcome × DBState :=
  if authorExists s authorName then
    (.alreadyExists, s)
  else
    (.added s.nextAuthorKey,
     { s with
        blockedAuthors :=
          s.blockedAuthors ++ [⟨s.nextAuthorKey, lowerStr authorName⟩],
        nextAuthorKey := s.nextAuthorKey + 1 })

/-- The function `deleteAuthor(id)`: `store.delete(id)` removes the record with that
primary key and resolves even when no such record exists. -/
def deleteAuthor (s : DBState) (id : Nat) : DBState :=
  { s with blockedAuthors := s.blockedAuthors.filter (fun r => r.id != id) }

/-- The function `getAuthors()`: `store.getAll()` on `blockedAuthors`. -/
def getAuthors (s : DBState) : List AuthorRecord :=
  s.blockedAuthors

/-- The function `clearAuthors()`: `store.clear()` on `blockedAuthors`. -/
def clearAuthors (s : DBState) : DBState :=
  { s with blockedAuthors := [] }

/-- The function `setPIN(pin)`: hash the PIN and `store.put` the
`{id: "pin", type: "pin", value: digest}` settings record. -/
def setPIN (s : DBState) (pin : String) : DBState :=
  putSetting s ⟨"pin", "pin", hashString pin⟩

/-- Result of an IndexedDB request: the `onsuccess` value or the
`onerror` case. -/
inductive ReqResult (α : Type) where
  | ok (value : α)
  | error (msg : String)
deriving Repr, DecidableEq

/-- The promise executor of `verifyPIN(pin)` as a function of how the
`store.get("pin")` request settles: `onsuccess` with a record compares
digests, `onsuccess` with no record resolves `false`, and `onerror`
also resolves `false` (it never rejects). -/
def verifyPINResolve (pin : String) : ReqResult (Option SettingRecord) → Bool
  | .ok (some rec) => rec.value == hashString pin
  | .ok none => false
  | .error _ => false

/-- The function `verifyPIN(pin)` on a database state (the successful-read path). -/
def verifyPIN (s : DBState) (pin : String) : Bool :=
  verifyPINResolve pin (.ok (getSetting s "pin"))

/-- The function `updatePIN(oldPIN, newPIN)`: hash the new PIN, verify the old one;
on failure throw `"Old PIN is incorrect."` without writing; on success
`store.put` the new digest.  Returns the outcome and the resulting
database state. -/
def updatePIN (s : DBState) (oldPIN newPIN : String) :
    Except String Unit × DBState :=
  if verifyPIN s oldPIN then
    (.ok (), putSetting s ⟨"pin", "pin", hashString newPIN⟩)
  else
    (.error "Old PIN is incorrect.", s)

/-- The promise executor of `isPINSet()` as a function of how the
`store.get("pin")` request settles: present record resolves `true`,
absent resolves `false`, `onerror` resolves `false` (fail-safe). -/
def isPINSetResolve : ReqResult (Option SettingRecord) → Bool
  | .ok (some _) => true
  | .ok none => false
  | .error _ => false

/-- The function `isPINSet()` on a database state (the successful-read path). -/
def isPINSet (s : DBState) : Bool :=
  isPINSetResolve (.ok (getSetting s "pin"))

/-! ## Sequential operation histories on the author store -/

/-- One sequential author-store operation. -/
inductive AuthorOp where
  | add (name : String)
  | del (id : Nat)
  | clearAll
deriving Repr, DecidableEq

/-- Apply one author operation to the database state. -/
def applyOp (s : DBState) : AuthorOp → DBState
  | .add n => (addAuthor s n).2
  | .del i => deleteAuthor s i
  | .clearAll => clearAuthors s

/-- Apply a sequential history of author operations. -/
def applyOps (s : DBState) (ops : List AuthorOp) : DBState :=
  ops.foldl applyOp s

/-! ## Background message listener (src/unnamed/part_003) -/

/-- The response object sent by the background listener. -/
structure FetchResponse where
  authors : List AuthorRecord
deriving Repr, DecidableEq

/-- The `chrome.runtime.onMessage` listener: for action
`"fetchBlockedAuthors"` it calls `getAuthors()` and responds with
`{authors}` on fulfilment or `{authors: []}` on rejection; other actions
get no response.  The listener is a function of how the `getAuthors()`
promise settles. -/
def onMessageListener (action : String)
    (getAuthorsResult : ReqResult (List AuthorRecord)) :
    Option FetchResponse :=
  if action == "fetchBlockedAuthors" then
    some (match getAuthorsResult with
      | .ok authors => ⟨authors⟩
      | .error _ => ⟨[]⟩)
  else
    none

/-! ## `openDatabase` under concurrent callers (src/unnamed/part_002)

`openDatabase` runs on the single JS event loop.  Its synchronous body
checks the module-level `db` variable: if set it resolves immediately
with it; otherwise it invokes `indexedDB.open` (the opening work) and
registers an `onsuccess` callback, which later assigns `db` and
resolves.  We model every pending call as a small program whose atomic
steps are exactly those two synchronous segments; connection handles
returned by distinct `indexedDB.open` invocations are distinct and are
numbered by a fresh counter. -/

/-- Progress of one `openDatabase()` call. -/
inductive CallerPhase where
  | start
  | waiting (h : Nat)
  | done (h : Nat)
deriving Repr, DecidableEq

/-- State of the module and its concurrent callers: the memoized `db`
variable, how many times `indexedDB.open` has been invoked, the fresh
handle counter, and each caller's phase. -/
structure OpenSys where
  db : Option Nat
  openCount : Nat
  nextHandle : Nat
  callers : List CallerPhase
deriving Repr, DecidableEq

/-- Interleaving semantics of `openDatabase`.  `memo`: a caller's
synchronous body finds `db` set and resolves with it.  `openReq`: a
caller's synchronous body finds `db` unset and performs the opening
work, obtaining a fresh pending connection.  `success`: a pending
connection's `onsuccess` event fires, assigning `db` and resolving that
caller. -/
inductive OpenStep : OpenSys → OpenSys → Prop where
  | memo (s : OpenSys) (i : Nat) (h : Nat) :
      s.callers[i]? = some .start → s.db = some h →
      OpenStep s { s with callers := s.callers.set i (.done h) }
  | openReq (s : OpenSys) (i : Nat) :
      s.callers[i]? = some .start → s.db = none →
      OpenStep s
        { db := none,
          openCount := s.openCount + 1,
          nextHandle := s.nextHandle + 1,
          callers := s.callers.set i (.waiting s.nextHandle) }
  | success (s : OpenSys) (i : Nat) (h : Nat) :
      s.callers[i]? = some (.waiting h) →
      OpenStep s { s with db := some h, callers := s.callers.set i (.done h) }

/-- Reachability along interleaved steps. -/
inductive OpenReach (s0 : OpenSys) : OpenSys → Prop where
  | refl : OpenReach s0 s0
  | step {s t : OpenSys} : OpenReach s0 s → OpenStep s t → OpenReach s0 t

/-- A system of `n` concurrent callers before any handle exists. -/
def openInit (n : Nat) : OpenSys :=
  ⟨none, 0, 0, List.replicate n .start⟩

/-! ## Helper lemmas -/

theorem getSetting_putSetting_same (s : DBState) (rec : SettingRecord) :
    getSetting (putSetting s rec) rec.id = some rec := by
  simp [getSetting, putSetting, List.find?]

theorem addAuthor_of_exists (s : DBState) (n : String)
    (h : authorExists s n = true) : addAuthor s n = (.alreadyExists, s) := by
  simp [addAuthor, h]

theorem cursorScan_iff (l : List AuthorRecord) (n : String) :
    cursorScan l n = true ↔ ∃ r ∈ l, lowerStr r.name = n := by
  induction l with
  | nil => simp [cursorScan]
  | cons r rest ih =>
      by_cases h : lowerStr r.name = n
      · simp [cursorScan, h]
      · simp [cursorScan, h, ih]

theorem authorExists_iff (s : DBState) (name : String) :
    authorExists s name = true ↔
      ∃ r ∈ s.blockedAuthors, lowerStr r.name = lowerStr name :=
  cursorScan_iff _ _

theorem applyOp_settings (s : DBState) (op : AuthorOp) :
    (applyOp s op).settings = s.settings := by
  cases op with
  | add n =>
      by_cases h : authorExists s n <;> simp [applyOp, addAuthor, h]
  | del i => rfl
  | clearAll => rfl

theorem applyOps_settings (ops : List AuthorOp) (s : DBState) :
    (applyOps s ops).settings = s.settings := by
  induction ops generalizing s with
  | nil => rfl
  | cons op rest ih =>
      simp [applyOps] at ih ⊢
      rw [ih, applyOp_settings]

/-- The store invariant: lowercased names are pairwise distinct, and
every stored name is already lowercase. -/
def StoreInv (s : DBState) : Prop :=
  (s.blockedAuthors.map (fun r => lowerStr r.name)).Nodup ∧
  ∀ r ∈ s.blockedAuthors, lowerStr r.name = r.name

theorem storeInv_init : StoreInv dbInit := by
  constructor <;> simp [dbInit]

theorem storeInv_applyOp (s : DBState) (op : AuthorOp) (h : StoreInv s) :
    StoreInv (applyOp s op) := by
  obtain ⟨hnd, hlow⟩ := h
  cases op with
  | add n =>
      by_cases he : authorExists s n
      · simpa [applyOp, addAuthor, he] using ⟨hnd, hlow⟩
      · have hnotin : ∀ r ∈ s.blockedAuthors, lowerStr r.name ≠ lowerStr n := by
          intro r hr hcontra
          exact he ((authorExists_iff s n).2 ⟨r, hr, hcontra⟩)
        constructor
        · simp only [applyOp, addAuthor, he, if_neg, Bool.false_eq_true,
            ite_false, List.map_append, List.map_cons, List.map_nil]
          rw [List.nodup_append]
          refine ⟨hnd, by simp, ?_⟩
          intro x hx
          simp only [lowerStr_idem, List.mem_singleton]
          obtain ⟨r, hr, hfx⟩ := List.mem_map.1 hx
          intro hxeq
          exact hnotin r hr (by rw [hfx, hxeq])
        · intro r hr
          simp only [applyOp, addAuthor, he, Bool.false_eq_true, ite_false,
            List.mem_append, List.mem_singleton] at hr
          rcases hr with hr | hr
          · exact hlow r hr
          · rw [hr]
            exact lowerStr_idem n
  | del i =>
      constructor
      · exact hnd.sublist ((List.filter_sublist _).map _)
      · intro r hr
        exact hlow r (List.mem_of_mem_filter hr)
  | clearAll =>
      constructor <;> simp [applyOp, clearAuthors]

theorem storeInv_applyOps (ops : List AuthorOp) (s : DBState)
    (h : StoreInv s) : StoreInv (applyOps s ops) := by
  induction ops generalizing s with
  | nil => exact h
  | cons op rest ih => exact ih _ (storeInv_applyOp s op h)

/-- Number of records whose lowercased name equals `n`. -/
def lowCount (s : DBState) (n : String) : Nat :=
  s.blockedAuthors.countP (fun r => lowerStr r.name == n)

theorem lowCount_le_one (s : DBState) (n : String)
    (h : (s.blockedAuthors.map (fun r => lowerStr r.name)).Nodup) :
    lowCount s n ≤ 1 := by
  have hc := (List.nodup_iff_count_le_one.1 h) n
  rw [List.count_eq_countP, List.countP_map] at hc
  exact hc

theorem lowCount_pos (s : DBState) (n : String)
    (h : ∃ r ∈ s.blockedAuthors, lowerStr r.name = n) :
    1 ≤ lowCount s n := by
  obtain ⟨r, hr, hrn⟩ := h
  exact List.countP_pos_iff.2 ⟨r, hr, by simp [hrn]⟩

theorem wordBytes_length (w : Nat) : (wordBytes w).length = 4 := rfl

theorem wordBytes_lt (w : Nat) : ∀ b ∈ wordBytes w, b < 256 := by
  intro b hb
  simp only [wordBytes, List.mem_cons, List.not_mem_nil, or_false] at hb
  rcases hb with h | h | h | h <;> (subst h; exact Nat.mod_lt _ (by omega))

theorem sha256_length (msg : List Nat) : (sha256 msg).length = 32 := by
  simp [sha256, wordBytes]

theorem sha256_lt (msg : List Nat) : ∀ b ∈ sha256 msg, b < 256 := by
  intro b hb
  simp only [sha256, List.mem_append] at hb
  rcases hb with ((((((h | h) | h) | h) | h) | h) | h) | h <;>
    exact wordBytes_lt _ b h

theorem padStart2_toHexDigits (b : Nat) (hb : b < 256) :
    padStart2 (toHexDigits b) = [hexDigit (b / 16), hexDigit (b % 16)] := by
  revert hb
  revert b
  decide

theorem hexDigit_mem (n : Nat) (hn : n < 16) :
    hexDigit n ∈ "0123456789abcdef".data := by
  revert hn
  revert n
  decide

theorem flatMap_length_two {α β : Type} (l : List α) (f : α → List β)
    (h : ∀ b ∈ l, (f b).length = 2) : (l.flatMap f).length = 2 * l.length := by
  induction l with
  | nil => simp
  | cons x xs ih =>
      simp only [List.flatMap_cons, List.length_append, List.length_cons]
      rw [h x (by simp), ih (fun b hb => h b (by simp [hb]))]
      omega

/-! ## Claim theorems -/

/-- C1: for every PIN string `p`, `verifyPIN(p)` returns true iff the
digest of `p` equals the digest stored in the `"pin"` settings record;
when no `"pin"` record exists it returns false for every `p`, without
throwing (the result is a total boolean). -/
theorem verifyPIN_correct (s : DBState) (p : String) :
    (verifyPIN s p = true ↔
      ∃ rec, getSetting s "pin" = some rec ∧ rec.value = hashString p) ∧
    (getSetting s "pin" = none → verifyPIN s p = false) := by
  constructor
  · unfold verifyPIN verifyPINResolve
    cases hg : getSetting s "pin" with
    | none => simp
    | some rec => simp [beq_iff_eq]
  · intro h
    unfold verifyPIN verifyPINResolve
    rw [h]

theorem verifyPIN_correct_witness : verifyPIN dbInit "123456" = false :=
  (verifyPIN_correct dbInit "123456").2 rfl

/-- C2: when the old PIN does not verify, `updatePIN` fails with the
"Old PIN is incorrect." error and leaves the state (hence the stored
digest) unchanged; when it verifies, `updatePIN` succeeds, `verifyPIN`
accepts the new PIN afterwards, and rejects the old one provided its
digest differs from the new one's. -/
theorem updatePIN_correct (s : DBState) (oldPin newPin : String) :
    (verifyPIN s oldPin = false →
      updatePIN s oldPin newPin = (.error "Old PIN is incorrect.", s)) ∧
    (verifyPIN s oldPin = true →
      (updatePIN s oldPin newPin).1 = .ok () ∧
      verifyPIN (updatePIN s oldPin newPin).2 newPin = true ∧
      (hashString oldPin ≠ hashString newPin →
        verifyPIN (updatePIN s oldPin newPin).2 oldPin = false)) := by
  constructor
  · intro hv
    simp [updatePIN, hv]
  · intro hv
    have hget :
        getSetting (putSetting s ⟨"pin", "pin", hashString newPin⟩) "pin" =
          some ⟨"pin", "pin", hashString newPin⟩ :=
      getSetting_putSetting_same s ⟨"pin", "pin", hashString newPin⟩
    have h2 : (updatePIN s oldPin newPin).2 =
        putSetting s ⟨"pin", "pin", hashString newPin⟩ := by
      simp [updatePIN, hv]
    refine ⟨by simp [updatePIN, hv], ?_, ?_⟩
    · rw [h2]
      unfold verifyPIN verifyPINResolve
      rw [hget]
      simp
    · intro hne
      simp only [updatePIN, hv, if_true]
      unfold verifyPIN verifyPINResolve
      rw [hget]
      simp [beq_eq_false_iff_ne]
      exact fun hcontra => hne hcontra.symm

theorem updatePIN_correct_witness :
    verifyPIN (updatePIN (setPIN dbInit "123456") "123456" "654321").2
      "654321" = true ∧
    verifyPIN (updatePIN (setPIN dbInit "123456") "123456" "654321").2
      "123456" = false :=
  ⟨((updatePIN_correct (setPIN dbInit "123456") "123456" "654321").2
      (by decide)).2.1,
   ((updatePIN_correct (setPIN dbInit "123456") "123456" "654321").2
      (by decide)).2.2 (by decide)⟩

/-- C5: `setPIN(pin)` upserts `{id: "pin", type: "pin", value: hash(pin)}`
unconditionally over any previous value, for every `pin` whatever its
format; `isPINSet()` is false before the first `setPIN` (from the fresh
database, under any history of author operations, which never touch the
settings store) and true immediately after any `setPIN`. -/
theorem setPIN_correct (s : DBState) (pin : String) :
    getSetting (setPIN s pin) "pin" = some ⟨"pin", "pin", hashString pin⟩ ∧
    isPINSet (setPIN s pin) = true ∧
    (∀ ops : List AuthorOp, isPINSet (applyOps dbInit ops) = false) := by
  have hget := getSetting_putSetting_same s
    (⟨"pin", "pin", hashString pin⟩ : SettingRecord)
  refine ⟨hget, ?_, ?_⟩
  · simp [isPINSet, isPINSetResolve, setPIN, hget]
  · intro ops
    have hs : (applyOps dbInit ops).settings = dbInit.settings :=
      applyOps_settings ops dbInit
    have hg : getSetting (applyOps dbInit ops) "pin" = none := by
      unfold getSetting
      rw [hs]
      rfl
    simp [isPINSet, isPINSetResolve, hg]

/-- C9: for every way the `getAuthors()` promise settles, the background
listener answers a `"fetchBlockedAuthors"` request — with `{authors: A}`
when `getAuthors` fulfils with `A` and with `{authors: []}` when it
rejects; it never leaves the request unanswered. -/
theorem onMessage_correct (res : ReqResult (List AuthorRecord)) :
    (onMessageListener "fetchBlockedAuthors" res).isSome = true ∧
    (∀ a, res = .ok a →
      onMessageListener "fetchBlockedAuthors" res = some ⟨a⟩) ∧
    (∀ msg, res = .error msg →
      onMessageListener "fetchBlockedAuthors" res = some ⟨[]⟩) := by
  refine ⟨?_, ?_, ?_⟩
  · cases res <;> simp [onMessageListener]
  · intro a h
    subst h
    simp [onMessageListener]
  · intro msg h
    subst h
    simp [onMessageListener]

theorem onMessage_correct_witness :
    onMessageListener "fetchBlockedAuthors" (.error "storage failure") =
      some ⟨[]⟩ :=
  (onMessage_correct (.error "storage failure")).2.2 "storage failure" rfl

/-- C10: `verifyPIN` never rejects — when the underlying
`store.get("pin")` request errors, the promise resolves with `false`,
indistinguishable from the no-record (unset PIN) outcome. -/
theorem verifyPIN_onError (p : String) (msg : String) :
    verifyPINResolve p (.error msg) = false ∧
    verifyPINResolve p (.error msg) = verifyPINResolve p (.ok none) :=
  ⟨rfl, rfl⟩

/-- C4: when a record with the same lowercase name exists, `addAuthor`
declines — it inserts nothing, resolves (no error) with the user-facing
already-exists signal; otherwise it appends `{name: lowercase(name)}`
and resolves with the new record's autoincrement key. -/
theorem addAuthor_correct (s : DBState) (name : String) :
    ((∃ r ∈ s.blockedAuthors, lowerStr r.name = lowerStr name) →
      addAuthor s name = (.alreadyExists, s)) ∧
    ((¬ ∃ r ∈ s.blockedAuthors, lowerStr r.name = lowerStr name) →
      (addAuthor s name).1 = .added s.nextAuthorKey ∧
      (addAuthor s name).2.blockedAuthors =
        s.blockedAuthors ++ [⟨s.nextAuthorKey, lowerStr name⟩]) := by
  constructor
  · intro h
    have he : authorExists s name = true := (authorExists_iff s name).2 h
    simp [addAuthor, he]
  · intro h
    have he : authorExists s name = false := by
      rcases hb : authorExists s name with _ | _
      · rfl
      · exact absurd ((authorExists_iff s name).1 hb) h
    constructor <;> simp [addAuthor, he]

theorem addAuthor_correct_witness :
    addAuthor (addAuthor dbInit "PewDiePie").2 "pewdiepie" =
      (.alreadyExists, (addAuthor dbInit "PewDiePie").2) :=
  (addAuthor_correct (addAuthor dbInit "PewDiePie").2 "pewdiepie").1
    ⟨⟨1, "pewdiepie"⟩, by decide, by decide⟩

/-- C8: `deleteAuthor(id)` resolves without error; when no record has
primary key `id` the collection is unchanged, and in general exactly the
records with that key are removed (everything else is kept). -/
theorem deleteAuthor_correct (s : DBState) (id : Nat) :
    ((∀ r ∈ s.blockedAuthors, r.id ≠ id) → deleteAuthor s id = s) ∧
    (∀ r, r ∈ (deleteAuthor s id).blockedAuthors ↔
      (r ∈ s.blockedAuthors ∧ r.id ≠ id)) := by
  constructor
  · intro h
    have hf : s.blockedAuthors.filter (fun r => r.id != id) =
        s.blockedAuthors :=
      List.filter_eq_self.2 (fun r hr => by simp [h r hr])
    simp [deleteAuthor, hf]
  · intro r
    simp [deleteAuthor, List.mem_filter]

theorem deleteAuthor_correct_witness :
    deleteAuthor (addAuthor dbInit "A").2 5 = (addAuthor dbInit "A").2 :=
  (deleteAuthor_correct (addAuthor dbInit "A").2 5).1 (by decide)

/-- C3: adding two names that agree after lowercasing, sequentially and
starting from any state reachable by a sequential author-operation
history, leaves exactly one record whose lowercase name is that name,
and its stored `name` field is the lowercase form; moreover after any
sequential history no two records share a lowercase name. -/
theorem addAuthor_dedup (ops : List AuthorOp) (n1 n2 : String)
    (h12 : lowerStr n1 = lowerStr n2) :
    lowCount (applyOps dbInit (ops ++ [.add n1, .add n2])) (lowerStr n1) = 1 ∧
    (∀ r ∈ (applyOps dbInit (ops ++ [.add n1, .add n2])).blockedAuthors,
      lowerStr r.name = lowerStr n1 → r.name = lowerStr n1) ∧
    (∀ ops2 : List AuthorOp,
      ((applyOps dbInit ops2).blockedAuthors.map
        (fun r => lowerStr r.name)).Nodup) := by
  have hsplit : applyOps dbInit (ops ++ [.add n1, .add n2]) =
      applyOp (applyOp (applyOps dbInit ops) (.add n1)) (.add n2) := by
    simp [applyOps, List.foldl_append]
  have hinv : StoreInv (applyOps dbInit ops) :=
    storeInv_applyOps ops dbInit storeInv_init
  have hinv2 : StoreInv (applyOp (applyOp (applyOps dbInit ops) (.add n1))
      (.add n2)) :=
    storeInv_applyOp _ _ (storeInv_applyOp _ _ hinv)
  have hmem : ∃ r ∈ (applyOp (applyOps dbInit ops)
      (.add n1)).blockedAuthors, lowerStr r.name = lowerStr n1 := by
    by_cases he : authorExists (applyOps dbInit ops) n1
    · obtain ⟨r, hr, hrn⟩ := (authorExists_iff _ n1).1 he
      exact ⟨r, by simp [applyOp, addAuthor, he, hr], hrn⟩
    · refine ⟨⟨(applyOps dbInit ops).nextAuthorKey, lowerStr n1⟩, ?_, ?_⟩
      · simp [applyOp, addAuthor, he]
      · exact lowerStr_idem n1
  have he2 : authorExists (applyOp (applyOps dbInit ops) (.add n1)) n2 = true := by
    refine (authorExists_iff _ n2).2 ?_
    rw [← h12]
    exact hmem
  have hstep2 : applyOp (applyOp (applyOps dbInit ops) (.add n1)) (.add n2) =
      applyOp (applyOps dbInit ops) (.add n1) := by
    show (addAuthor (applyOp (applyOps dbInit ops) (.add n1)) n2).2 = _
    rw [addAuthor_of_exists _ _ he2]
  refine ⟨?_, ?_, ?_⟩
  · rw [hsplit, hstep2]
    have hle : lowCount (applyOp (applyOps dbInit ops) (.add n1))
        (lowerStr n1) ≤ 1 :=
      lowCount_le_one _ _ (storeInv_applyOp _ _ hinv).1
    have hge : 1 ≤ lowCount (applyOp (applyOps dbInit ops) (.add n1))
        (lowerStr n1) :=
      lowCount_pos _ _ hmem
    omega
  · intro r hr hrl
    rw [← hrl]
    exact (hinv2.2 r (by rwa [← hsplit])).symm
  · intro ops2
    exact (storeInv_applyOps ops2 dbInit storeInv_init).1

theorem addAuthor_dedup_witness :
    lowCount (applyOps dbInit ([] ++ [.add "PewDiePie", .add "pewdiepie"]))
      (lowerStr "PewDiePie") = 1 :=
  (addAuthor_dedup [] "PewDiePie" "pewdiepie" (by decide)).1

/-- C6: `hashString` is the (pure, deterministic) SHA-256 digest of the
UTF-8 bytes of its input, rendered as lowercase hexadecimal: the
`toString(16).padStart(2, "0")` rendering of each byte equals the
canonical two-zero-padded-hex-characters-per-byte rendering, the result
is 64 characters long, and every character is a lowercase hex digit. -/
theorem hashString_is_sha256_hex (input : String) :
    hashString input =
      String.mk ((sha256 (utf8Encode input)).flatMap
        (fun b => [hexDigit (b / 16), hexDigit (b % 16)])) ∧
    (hashString input).length = 64 ∧
    (∀ c ∈ (hashString input).data, c ∈ "0123456789abcdef".data) := by
  have hren : ∀ b ∈ sha256 (utf8Encode input),
      padStart2 (toHexDigits b) = [hexDigit (b / 16), hexDigit (b % 16)] :=
    fun b hb => padStart2_toHexDigits b (sha256_lt _ b hb)
  have hmain : hashString input =
      String.mk ((sha256 (utf8Encode input)).flatMap
        (fun b => [hexDigit (b / 16), hexDigit (b % 16)])) := by
    unfold hashString
    exact congrArg String.mk (List.flatMap_congr hren)
  refine ⟨hmain, ?_, ?_⟩
  · rw [hmain]
    show (List.flatMap _ _).length = 64
    rw [flatMap_length_two (sha256 (utf8Encode input))
      (fun b => [hexDigit (b / 16), hexDigit (b % 16)]) (fun b _ => rfl),
      sha256_length]
  · intro c hc
    rw [hmain] at hc
    have hc2 : c ∈ (sha256 (utf8Encode input)).flatMap
        (fun b => [hexDigit (b / 16), hexDigit (b % 16)]) := hc
    obtain ⟨b, hb, hcb⟩ := List.mem_flatMap.1 hc2
    have hblt : b < 256 := sha256_lt _ b hb
    rcases List.mem_cons.1 hcb with h | h
    · rw [h]
      exact hexDigit_mem _ (by omega)
    · rw [List.mem_singleton.1 h]
      exact hexDigit_mem _ (Nat.mod_lt _ (by omega))

theorem hashString_is_sha256_hex_witness :
    'b' ∈ (hashString "abc").data ∧ 'b' ∈ "0123456789abcdef".data :=
  ⟨by decide, (hashString_is_sha256_hex "abc").2.2 'b' (by decide)⟩

/-- C7 counterexample: two callers that both enter `openDatabase` before
any handle exists each perform the opening work (`indexedDB.open` runs
twice) and end up resolved with two different connection handles, so the
claimed at-most-once property fails on the code. -/
theorem openDatabase_race :
    OpenReach (openInit 2)
      { db := some 1, openCount := 2, nextHandle := 2,
        callers := [.done 0, .done 1] } ∧
    ¬ (∀ s, OpenReach (openInit 2) s → s.openCount ≤ 1 ∧
        (∀ (i j hi hj : Nat), s.callers[i]? = some (CallerPhase.done hi) →
          s.callers[j]? = some (CallerPhase.done hj) → hi = hj)) := by
  have h1 : OpenStep (openInit 2)
      ⟨none, 1, 1, [.waiting 0, .start]⟩ :=
    OpenStep.openReq (openInit 2) 0 rfl rfl
  have h2 : OpenStep (⟨none, 1, 1, [.waiting 0, .start]⟩ : OpenSys)
      ⟨none, 2, 2, [.waiting 0, .waiting 1]⟩ :=
    OpenStep.openReq ⟨none, 1, 1, [.waiting 0, .start]⟩ 1 rfl rfl
  have h3 : OpenStep (⟨none, 2, 2, [.waiting 0, .waiting 1]⟩ : OpenSys)
      ⟨some 0, 2, 2, [.done 0, .waiting 1]⟩ :=
    OpenStep.success ⟨none, 2, 2, [.waiting 0, .waiting 1]⟩ 0 0 rfl
  have h4 : OpenStep (⟨some 0, 2, 2, [.done 0, .waiting 1]⟩ : OpenSys)
      ⟨some 1, 2, 2, [.done 0, .done 1]⟩ :=
    OpenStep.success ⟨some 0, 2, 2, [.done 0, .waiting 1]⟩ 1 1 rfl
  have hreach : OpenReach (openInit 2)
      ⟨some 1, 2, 2, [.done 0, .done 1]⟩ :=
    .step (.step (.step (.step .refl h1) h2) h3) h4
  refine ⟨hreach, fun hall => ?_⟩
  exact absurd (hall _ hreach).1 (by decide)

/-- C7 as amended: the handle is memoized only once the first open has
completed — from any state in which `db` is already set, no further
interleaved step performs opening work (the `indexedDB.open` count never
changes) and the handle stays set; but callers that all enter before the
handle exists may each perform the opening work, as `openDatabase_race`
shows. -/
theorem openDatabase_memoized (s0 t : OpenSys) (h0 : s0.db.isSome = true)
    (hr : OpenReach s0 t) :
    t.openCount = s0.openCount ∧ t.db.isSome = true := by
  induction hr with
  | refl => exact ⟨rfl, h0⟩
  | step hr hs ih =>
      obtain ⟨hcount, hsome⟩ := ih
      cases hs with
      | memo i h hi hdb => exact ⟨hcount, hsome⟩
      | openReq i hi hdb =>
          rw [hdb] at hsome
          simp at hsome
      | success i h hi => exact ⟨hcount, rfl⟩

theorem openDatabase_memoized_witness :
    ({ db := some 5, openCount := 1, nextHandle := 1,
       callers := [.done 5] } : OpenSys).openCount = 1 ∧
    ({ db := some 5, openCount := 1, nextHandle := 1,
       callers := [.done 5] } : OpenSys).db.isSome = true :=
  openDatabase_memoized ⟨some 5, 1, 1, [.start]⟩
    ⟨some 5, 1, 1, [.done 5]⟩ rfl
    (.step .refl (.memo ⟨some 5, 1, 1, [.start]⟩ 0 5 rfl rfl))

end ChannelGuard
